import Mathlib

/-!
Shallow embedding of src/main.cpp: axis-aligned box IoU, greedy duplicate
suppression (frame_clean), greedy cross-frame fusion (union_frames), and the
RGB→BGR pixel-channel swap (rgb2bgr).

Modelling conventions:
* C++ int coordinates become ℤ (the spec treats them as plain integers).
* C++ float results become exact rationals ℚ.  Every quantity the program
  compares or returns is an integer quotient, so rational arithmetic decides
  the same comparisons as the float code; the one float-only behaviour,
  0.0f/0.0f producing NaN, is modelled by returning none, and a comparison
  NaN >= t (always false in C++) is modelled by iouGe returning false on none.
* The in-place keep-flag loop of frame_clean is modelled by explicit state
  passing: the keep vector is a List Bool threaded through folds over the
  same index ranges the C++ loops traverse.
* rgb2bgr mutates its image argument and returns bool; this is modelled as a
  function returning the (bool result, updated image) pair.
-/

/-- struct box: four int coordinates and an int type tag. -/
structure Box where
  x1 : Int
  y1 : Int
  x2 : Int
  y2 : Int
  type : Int
deriving DecidableEq, Inhabited

/-- struct image: width, height, format tag (0=GRAY 1=RGB 2=BGR) and the
pixel byte buffer, modelled as the list of bytes `data` points to. -/
structure Image where
  width : Int
  height : Int
  format : Int
  data : List Nat
deriving DecidableEq, Inhabited

/-- struct frame: an image together with its detected boxes. -/
structure Frame where
  img : Image
  boxes : List Box
deriving DecidableEq, Inhabited

/-- float calculate_iou(const box&, const box&).  Returns none exactly when
the C++ code divides zero by zero (NaN); otherwise some of the exact
quotient. -/
def calculate_iou (b1 b2 : Box) : Option ℚ :=
  let x_left := max b1.x1 b2.x1
  let x_right := min b1.x2 b2.x2
  let y_top := max b1.y1 b2.y1
  let y_bottom := min b1.y2 b2.y2
  if x_left > x_right ∨ y_bottom < y_top then
    some 0
  else
    let intersection := (x_right - x_left) * (y_bottom - y_top)
    let b1_area := (b1.x2 - b1.x1) * (b1.y2 - b1.y1)
    let b2_area := (b2.x2 - b2.x1) * (b2.y2 - b2.y1)
    if b1_area + b2_area - intersection = 0 then none
    else some ((intersection : ℚ) / ((b1_area + b2_area - intersection : ℤ) : ℚ))

/-- The comparison calculate_iou(a, b) >= threshold as the C++ code performs
it: a NaN result (none) compares false. -/
def iouGe (b1 b2 : Box) (t : ℚ) : Bool :=
  match calculate_iou b1 b2 with
  | none => false
  | some q => t ≤ q

/-- One iteration of frame_clean's inner loop body at index j:
if calculate_iou(boxes[i], boxes[j]) >= threshold then keep[j] = false. -/
def innerStep (bi : Box) (t : ℚ) (boxes : List Box) (keep : List Bool) (j : Nat) :
    List Bool :=
  if iouGe bi (boxes.getD j default) t then keep.set j false else keep

/-- One iteration of frame_clean's outer loop at index i: skip if keep[i] is
already false, otherwise run the inner loop over j = i+1 .. boxes.size-1. -/
def outerStep (boxes : List Box) (t : ℚ) (keep : List Bool) (i : Nat) : List Bool :=
  if keep.getD i false = false then keep
  else (List.range' (i + 1) (boxes.length - (i + 1))).foldl
    (innerStep (boxes.getD i default) t boxes) keep

/-- The keep vector frame_clean has computed after both loops finish:
initialized all-true, then the outer loop over i = 0 .. boxes.size-1. -/
def frameCleanKeep (boxes : List Box) (t : ℚ) : List Bool :=
  (List.range boxes.length).foldl (outerStep boxes t)
    (List.replicate boxes.length true)

/-- frame_clean's final extraction loop: push_back boxes[i] when keep[i]. -/
def select : List Box → List Bool → List Box
  | [], _ => []
  | _ :: _, [] => []
  | b :: bs, k :: ks => if k then b :: select bs ks else select bs ks

/-- void frame_clean(frame&, float): replaces f.boxes by the kept
subsequence.  The in-place mutation is modelled by returning the new frame. -/
def frame_clean (f : Frame) (t : ℚ) : Frame :=
  { f with boxes := select f.boxes (frameCleanKeep f.boxes t) }

/-- The merge union_frames performs when two boxes pass the IoU test:
box1's coordinates become the envelope, its other field is unchanged. -/
def mergeBox (b1 b2 : Box) : Box :=
  { x1 := min b1.x1 b2.x1
    y1 := min b1.y1 b2.y1
    x2 := max b1.x2 b2.x2
    y2 := max b1.y2 b2.y2
    type := b1.type }

/-- union_frames's inner loop: scan the current result boxes for the first
box1 with calculate_iou(box1, box2) >= threshold; if found, replace it by the
envelope and stop (some updated-list), otherwise report no merge (none). -/
def tryMerge (t : ℚ) (b2 : Box) : List Box → Option (List Box)
  | [] => none
  | b1 :: rest =>
    if iouGe b1 b2 t then some (mergeBox b1 b2 :: rest)
    else (tryMerge t b2 rest).map (b1 :: ·)

/-- union_frames's outer loop body for one box2 of f2: merge into the first
matching result box, or push_back box2 if no merge happened. -/
def unionStep (t : ℚ) (acc : List Box) (b2 : Box) : List Box :=
  match tryMerge t b2 acc with
  | some merged => merged
  | none => acc ++ [b2]

/-- frame union_frames(frame&, frame&, float): result starts as a copy of f1
and each box of f2 is merged into it or appended. -/
def union_frames (f1 f2 : Frame) (t : ℚ) : Frame :=
  { img := f1.img, boxes := f2.boxes.foldl (unionStep t) f1.boxes }

/-- The pixel loop of rgb2bgr: for the first n pixels (3 bytes each), swap
bytes 0 and 2 of the pixel and advance by 3. -/
def swapPixels : Nat → List Nat → List Nat
  | 0, data => data
  | n + 1, r :: g :: b :: rest => b :: g :: r :: swapPixels n rest
  | _ + 1, data => data

/-- bool rgb2bgr(image&): fails (false, unchanged image) unless format is
RGB (1); otherwise swaps channels 0 and 2 of each of the height*width pixels
and sets format to BGR (2).  The in-place mutation is modelled by returning
the (bool, updated image) pair. -/
def rgb2bgr (img : Image) : Bool × Image :=
  if img.format ≠ 1 then (false, img)
  else
    (true,
      { img with
        data := swapPixels (img.height * img.width).toNat img.data
        format := 2 })

/-! ### Helper lemmas about union_frames -/

/-- If box2 passes the IoU threshold against no element of the scanned list,
the inner scan of union_frames finds nothing to merge. -/
theorem tryMerge_eq_none (t : ℚ) (b2 : Box) :
    ∀ acc : List Box, (∀ a ∈ acc, iouGe a b2 t = false) → tryMerge t b2 acc = none := by
  intro acc
  induction acc with
  | nil => intro _; rfl
  | cons b1 rest ih =>
    intro h
    have hb1 : iouGe b1 b2 t = false := h b1 (List.mem_cons_self b1 rest)
    have hrest : tryMerge t b2 rest = none :=
      ih (fun a ha => h a (List.mem_cons_of_mem b1 ha))
    simp [tryMerge, hb1, hrest]

/-- If no secondary box passes the threshold against any accumulated box and
the secondary boxes are pairwise below the threshold among themselves, the
fusion loop only appends. -/
theorem foldl_unionStep_append (t : ℚ) :
    ∀ (bs acc : List Box),
    (∀ a ∈ acc, ∀ b ∈ bs, iouGe a b t = false) →
    List.Pairwise (fun x y => iouGe x y t = false) bs →
    List.foldl (unionStep t) acc bs = acc ++ bs := by
  intro bs
  induction bs with
  | nil => intro acc _ _; simp
  | cons b bs ih =>
    intro acc hab hp
    rw [List.pairwise_cons] at hp
    obtain ⟨hb, hbs⟩ := hp
    have hnone : tryMerge t b acc =
        none := tryMerge_eq_none t b acc (fun a ha => hab a ha b (List.mem_cons_self b bs))
    have hstep : unionStep t acc b = acc ++ [b] := by simp [unionStep, hnone]
    rw [List.foldl_cons, hstep, ih (acc ++ [b]) ?_ hbs]
    · simp
    · intro a ha b' hb'
      rcases List.mem_append.mp ha with ha1 | ha2
      · exact hab a ha1 b' (List.mem_cons_of_mem b hb')
      · have : a = b := by simpa using ha2
        subst this
        exact hb b' hb'

/-! ### Claims about union_frames (C1, C5) -/

/-- C1 (counterexample): with an empty primary frame, union_frames does NOT
always return the secondary boxes unchanged: two identical secondary boxes
are greedily merged into one, so the output differs from the input in both
length and content. -/
theorem union_frames_empty_primary_not_id :
    (union_frames ⟨⟨0, 0, 0, []⟩, []⟩
        ⟨⟨0, 0, 0, []⟩, [⟨0, 0, 2, 2, 0⟩, ⟨0, 0, 2, 2, 0⟩]⟩ (1/2)).boxes ≠
      [⟨0, 0, 2, 2, 0⟩, ⟨0, 0, 2, 2, 0⟩] := by
  with_unfolding_all decide

/-- C1 (amended): fusing an empty primary sequence with secondary boxes bs
returns exactly bs, in content and order, provided no later box of bs
reaches the IoU threshold against an earlier box of bs; without that proviso
the loop self-merges the secondary boxes. -/
theorem union_frames_empty_primary (i1 i2 : Image) (bs : List Box) (t : ℚ)
    (h : List.Pairwise (fun x y => iouGe x y t = false) bs) :
    (union_frames ⟨i1, []⟩ ⟨i2, bs⟩ t).boxes = bs := by
  show List.foldl (unionStep t) [] bs = bs
  rw [foldl_unionStep_append t bs [] (by intro a ha; simp at ha) h]
  simp

/-- C5: fusing any frame with a frame carrying an empty box sequence returns
the primary frame unchanged: same image, same boxes, same order, including
every field of every box. -/
theorem union_frames_empty_secondary (f1 : Frame) (img2 : Image) (t : ℚ) :
    union_frames f1 ⟨img2, []⟩ t = f1 := rfl

/-! ### Claims about calculate_iou (C2, C6, C7, C8) -/

/-- C6: calculate_iou is symmetric in its two arguments. -/
theorem calculate_iou_comm (b1 b2 : Box) :
    calculate_iou b1 b2 = calculate_iou b2 b1 := by
  simp only [calculate_iou]
  rw [max_comm b2.x1 b1.x1, min_comm b2.x2 b1.x2, max_comm b2.y1 b1.y1,
    min_comm b2.y2 b1.y2,
    add_comm ((b2.x2 - b2.x1) * (b2.y2 - b2.y1)) ((b1.x2 - b1.x1) * (b1.y2 - b1.y1))]

/-- C7: on a non-degenerate rectangle, calculate_iou of the rectangle with
itself is exactly 1. -/
theorem calculate_iou_self (a : Box) (hx : a.x1 < a.x2) (hy : a.y1 < a.y2) :
    calculate_iou a a = some 1 := by
  have harea : 0 < (a.x2 - a.x1) * (a.y2 - a.y1) :=
    mul_pos (by linarith) (by linarith)
  simp only [calculate_iou, max_self, min_self]
  rw [if_neg (by push_neg; constructor <;> linarith)]
  have e : (a.x2 - a.x1) * (a.y2 - a.y1) + (a.x2 - a.x1) * (a.y2 - a.y1) -
      (a.x2 - a.x1) * (a.y2 - a.y1) = (a.x2 - a.x1) * (a.y2 - a.y1) := by ring
  rw [e, if_neg harea.ne']
  rw [div_self (by exact_mod_cast harea.ne')]

/-- C8: when the intersection window is empty
(x_left > x_right or y_bottom < y_top), calculate_iou returns exactly 0. -/
theorem calculate_iou_disjoint (b1 b2 : Box)
    (h : max b1.x1 b2.x1 > min b1.x2 b2.x2 ∨ min b1.y2 b2.y2 < max b1.y1 b2.y1) :
    calculate_iou b1 b2 = some 0 := by
  simp only [calculate_iou]
  rw [if_pos h]

/-- C2 (counterexample): on a pair of degenerate rectangles whose
intersection test passes, the division in calculate_iou is 0/0: the C++
float code yields NaN, which is not a real number in [0, 1]; the embedding
returns none. -/
theorem calculate_iou_zero_area_div_undefined :
    calculate_iou ⟨0, 0, 0, 0, 0⟩ ⟨0, 0, 0, 0, 0⟩ = none := by
  with_unfolding_all decide

/-- C2 (amended): whenever the division in calculate_iou is defined (the
union area is nonzero, i.e. the result is not NaN), the returned value lies
in [0, 1].  The sole exception is a pair of zero-area rectangles passing the
intersection test, where the division is 0/0. -/
theorem calculate_iou_range_unit (b1 b2 : Box) (q : ℚ)
    (h : calculate_iou b1 b2 = some q) : 0 ≤ q ∧ q ≤ 1 := by
  simp only [calculate_iou] at h
  by_cases hov : max b1.x1 b2.x1 > min b1.x2 b2.x2 ∨ min b1.y2 b2.y2 < max b1.y1 b2.y1
  · rw [if_pos hov] at h
    obtain rfl : (0 : ℚ) = q := Option.some.inj h
    norm_num
  · rw [if_neg hov] at h
    push_neg at hov
    obtain ⟨hxw, hyw⟩ := hov
    by_cases hz : (b1.x2 - b1.x1) * (b1.y2 - b1.y1) + (b2.x2 - b2.x1) * (b2.y2 - b2.y1) -
        (min b1.x2 b2.x2 - max b1.x1 b2.x1) * (min b1.y2 b2.y2 - max b1.y1 b2.y1) = 0
    · rw [if_pos hz] at h
      exact absurd h (by simp)
    · rw [if_neg hz] at h
      obtain rfl := Option.some.inj h
      have hxn : (0 : ℤ) ≤ min b1.x2 b2.x2 - max b1.x1 b2.x1 := by linarith
      have hyn : (0 : ℤ) ≤ min b1.y2 b2.y2 - max b1.y1 b2.y1 := by linarith
      have hx1 : min b1.x2 b2.x2 - max b1.x1 b2.x1 ≤ b1.x2 - b1.x1 := by
        have h1 := min_le_left b1.x2 b2.x2
        have h2 := le_max_left b1.x1 b2.x1
        linarith
      have hx2 : min b1.x2 b2.x2 - max b1.x1 b2.x1 ≤ b2.x2 - b2.x1 := by
        have h1 := min_le_right b1.x2 b2.x2
        have h2 := le_max_right b1.x1 b2.x1
        linarith
      have hy1 : min b1.y2 b2.y2 - max b1.y1 b2.y1 ≤ b1.y2 - b1.y1 := by
        have h1 := min_le_left b1.y2 b2.y2
        have h2 := le_max_left b1.y1 b2.y1
        linarith
      have hy2 : min b1.y2 b2.y2 - max b1.y1 b2.y1 ≤ b2.y2 - b2.y1 := by
        have h1 := min_le_right b1.y2 b2.y2
        have h2 := le_max_right b1.y1 b2.y1
        linarith
      have hint_le1 : (min b1.x2 b2.x2 - max b1.x1 b2.x1) *
          (min b1.y2 b2.y2 - max b1.y1 b2.y1) ≤ (b1.x2 - b1.x1) * (b1.y2 - b1.y1) :=
        mul_le_mul hx1 hy1 hyn (by linarith)
      have hint_le2 : (min b1.x2 b2.x2 - max b1.x1 b2.x1) *
          (min b1.y2 b2.y2 - max b1.y1 b2.y1) ≤ (b2.x2 - b2.x1) * (b2.y2 - b2.y1) :=
        mul_le_mul hx2 hy2 hyn (by linarith)
      have hint_nonneg : (0 : ℤ) ≤ (min b1.x2 b2.x2 - max b1.x1 b2.x1) *
          (min b1.y2 b2.y2 - max b1.y1 b2.y1) := mul_nonneg hxn hyn
      have hden_ge : (min b1.x2 b2.x2 - max b1.x1 b2.x1) *
          (min b1.y2 b2.y2 - max b1.y1 b2.y1) ≤
          (b1.x2 - b1.x1) * (b1.y2 - b1.y1) + (b2.x2 - b2.x1) * (b2.y2 - b2.y1) -
          (min b1.x2 b2.x2 - max b1.x1 b2.x1) * (min b1.y2 b2.y2 - max b1.y1 b2.y1) := by
        linarith
      have hden_pos : (0 : ℤ) <
          (b1.x2 - b1.x1) * (b1.y2 - b1.y1) + (b2.x2 - b2.x1) * (b2.y2 - b2.y1) -
          (min b1.x2 b2.x2 - max b1.x1 b2.x1) * (min b1.y2 b2.y2 - max b1.y1 b2.y1) :=
        lt_of_le_of_ne (by linarith) (Ne.symm hz)
      constructor
      · apply div_nonneg
        · exact_mod_cast hint_nonneg
        · exact le_of_lt (by exact_mod_cast hden_pos)
      · rw [div_le_one (by exact_mod_cast hden_pos)]
        exact_mod_cast hden_ge

/-- Witness for the amended C1 at a concrete input: two disjoint secondary
boxes survive fusion with an empty primary frame unchanged. -/
theorem union_frames_empty_primary_witness :
    List.Pairwise (fun x y => iouGe x y (1/2) = false)
      [(⟨0, 0, 1, 1, 0⟩ : Box), ⟨5, 5, 6, 6, 0⟩] ∧
    (union_frames ⟨⟨0, 0, 0, []⟩, []⟩
        ⟨⟨0, 0, 0, []⟩, [⟨0, 0, 1, 1, 0⟩, ⟨5, 5, 6, 6, 0⟩]⟩ (1/2)).boxes =
      [⟨0, 0, 1, 1, 0⟩, ⟨5, 5, 6, 6, 0⟩] :=
  ⟨by with_unfolding_all decide,
   union_frames_empty_primary ⟨0, 0, 0, []⟩ ⟨0, 0, 0, []⟩ _ _
     (by with_unfolding_all decide)⟩

/-- Witness for C2's amended theorem at a concrete input: on the spec's
scenario boxes the IoU is 1/7, which lies in [0, 1]. -/
theorem calculate_iou_range_unit_witness :
    calculate_iou ⟨0, 0, 2, 2, 0⟩ ⟨1, 1, 3, 3, 0⟩ = some (1/7) ∧
    (0 ≤ (1/7 : ℚ) ∧ (1/7 : ℚ) ≤ 1) :=
  ⟨by with_unfolding_all decide,
   calculate_iou_range_unit ⟨0, 0, 2, 2, 0⟩ ⟨1, 1, 3, 3, 0⟩ (1/7)
     (by with_unfolding_all decide)⟩

/-- Witness for C7 at a concrete input: the non-degenerate box (0,0,2,2) has
self-IoU exactly 1. -/
theorem calculate_iou_self_witness :
    ((0 : ℤ) < 2 ∧ (0 : ℤ) < 2) ∧
    calculate_iou ⟨0, 0, 2, 2, 0⟩ ⟨0, 0, 2, 2, 0⟩ = some 1 :=
  ⟨by decide, calculate_iou_self ⟨0, 0, 2, 2, 0⟩ (by decide) (by decide)⟩

/-- Witness for C8 at a concrete input: the spec's disjoint boxes (0,0,2,2)
and (4,4,6,6) have IoU exactly 0. -/
theorem calculate_iou_disjoint_witness :
    (max (0 : ℤ) 4 > min (2 : ℤ) 6 ∨ min (2 : ℤ) 6 < max (0 : ℤ) 4) ∧
    calculate_iou ⟨0, 0, 2, 2, 0⟩ ⟨4, 4, 6, 6, 0⟩ = some 0 :=
  ⟨by decide, calculate_iou_disjoint ⟨0, 0, 2, 2, 0⟩ ⟨4, 4, 6, 6, 0⟩ (by decide)⟩

/-! ### rgb2bgr (C9) -/

/-- Unfolding of one pixel of the swap loop. -/
theorem swapPixels_succ (n : Nat) (a b c : Nat) (rest : List Nat) :
    swapPixels (n + 1) (a :: b :: c :: rest) = c :: b :: a :: swapPixels n rest := rfl

/-- A list long enough for at least one pixel splits off three bytes. -/
theorem exists_three_bytes (l : List Nat) (h : 3 ≤ l.length) :
    ∃ a b c rest, l = a :: b :: c :: rest := by
  rcases l with _ | ⟨a, _ | ⟨b, _ | ⟨c, rest⟩⟩⟩
  · simp only [List.length_nil] at h; omega
  · simp only [List.length_cons, List.length_nil] at h; omega
  · simp only [List.length_cons, List.length_nil] at h; omega
  · exact ⟨a, b, c, rest, rfl⟩

/-- The pixel swap loop does not change the buffer length. -/
theorem swapPixels_length (n : Nat) :
    ∀ data : List Nat, 3 * n ≤ data.length → (swapPixels n data).length = data.length := by
  induction n with
  | zero => intro data _; rfl
  | succ n ih =>
    intro data h
    obtain ⟨a, b, c, rest, rfl⟩ := exists_three_bytes data (by omega)
    rw [swapPixels_succ]
    simp only [List.length_cons]
    rw [ih rest (by simp only [List.length_cons] at h; omega)]

/-- For every processed pixel p, the swap loop exchanges bytes 3p and 3p+2
and keeps byte 3p+1. -/
theorem swapPixels_getD :
    ∀ (p n : Nat) (data : List Nat), 3 * n ≤ data.length → p < n →
      (swapPixels n data).getD (3 * p) 0 = data.getD (3 * p + 2) 0 ∧
      (swapPixels n data).getD (3 * p + 1) 0 = data.getD (3 * p + 1) 0 ∧
      (swapPixels n data).getD (3 * p + 2) 0 = data.getD (3 * p) 0 := by
  intro p
  induction p with
  | zero =>
    intro n data h hp
    rcases n with _ | n
    · exact absurd hp (by omega)
    · obtain ⟨a, b, c, rest, rfl⟩ := exists_three_bytes data (by omega)
      refine ⟨?_, ?_, ?_⟩ <;> rfl
  | succ p ih =>
    intro n data h hp
    rcases n with _ | n
    · exact absurd hp (by omega)
    · obtain ⟨a, b, c, rest, rfl⟩ := exists_three_bytes data (by omega)
      have h3 : 3 * n ≤ rest.length := by
        simp only [List.length_cons] at h; omega
      obtain ⟨e1, e2, e3⟩ := ih n rest h3 (by omega)
      rw [swapPixels_succ]
      have i0 : 3 * (p + 1) = 3 * p + 1 + 1 + 1 := by ring
      have i1 : 3 * (p + 1) + 1 = 3 * p + 1 + 1 + 1 + 1 := by ring
      have i2 : 3 * (p + 1) + 2 = 3 * p + 2 + 1 + 1 + 1 := by ring
      refine ⟨?_, ?_, ?_⟩
      · rw [i2, i0]
        simp only [List.getD_cons_succ]
        exact e1
      · rw [i1]
        simp only [List.getD_cons_succ]
        exact e2
      · rw [i2, i0]
        simp only [List.getD_cons_succ]
        exact e3

/-- C9: on a non-RGB image rgb2bgr fails cleanly, returning false with the
image (pixels, dimensions, format) untouched; on an RGB image it returns
true, flips the tag to BGR, preserves the dimensions and buffer length, and
swaps the first and last channel of every pixel. -/
theorem rgb2bgr_spec (img : Image)
    (h : 3 * (img.height * img.width).toNat ≤ img.data.length) :
    (img.format ≠ 1 → rgb2bgr img = (false, img)) ∧
    (img.format = 1 →
      (rgb2bgr img).1 = true ∧
      (rgb2bgr img).2.format = 2 ∧
      (rgb2bgr img).2.width = img.width ∧
      (rgb2bgr img).2.height = img.height ∧
      (rgb2bgr img).2.data.length = img.data.length ∧
      ∀ p, p < (img.height * img.width).toNat →
        (rgb2bgr img).2.data.getD (3 * p) 0 = img.data.getD (3 * p + 2) 0 ∧
        (rgb2bgr img).2.data.getD (3 * p + 1) 0 = img.data.getD (3 * p + 1) 0 ∧
        (rgb2bgr img).2.data.getD (3 * p + 2) 0 = img.data.getD (3 * p) 0) := by
  constructor
  · intro hf
    unfold rgb2bgr
    rw [if_pos hf]
  · intro hf
    have hcond : ¬ (img.format ≠ 1) := by simp [hf]
    unfold rgb2bgr
    rw [if_neg hcond]
    refine ⟨rfl, rfl, rfl, rfl, swapPixels_length _ img.data h, ?_⟩
    intro p hp
    exact swapPixels_getD p _ img.data h hp

/-- Witness for C9 at a concrete input: a 1×1 RGB image with bytes [7,8,9]
converts to [9,8,7] with tag 2, and the non-RGB branch is vacuous there. -/
theorem rgb2bgr_spec_witness :
    3 * ((Image.mk 1 1 1 [7, 8, 9]).height * (Image.mk 1 1 1 [7, 8, 9]).width).toNat ≤
      (Image.mk 1 1 1 [7, 8, 9]).data.length ∧
    (((Image.mk 1 1 1 [7, 8, 9]).format ≠ 1 →
        rgb2bgr (Image.mk 1 1 1 [7, 8, 9]) = (false, Image.mk 1 1 1 [7, 8, 9])) ∧
      ((Image.mk 1 1 1 [7, 8, 9]).format = 1 →
        (rgb2bgr (Image.mk 1 1 1 [7, 8, 9])).1 = true ∧
        (rgb2bgr (Image.mk 1 1 1 [7, 8, 9])).2.format = 2 ∧
        (rgb2bgr (Image.mk 1 1 1 [7, 8, 9])).2.width = (Image.mk 1 1 1 [7, 8, 9]).width ∧
        (rgb2bgr (Image.mk 1 1 1 [7, 8, 9])).2.height = (Image.mk 1 1 1 [7, 8, 9]).height ∧
        (rgb2bgr (Image.mk 1 1 1 [7, 8, 9])).2.data.length =
          (Image.mk 1 1 1 [7, 8, 9]).data.length ∧
        ∀ p, p < ((Image.mk 1 1 1 [7, 8, 9]).height * (Image.mk 1 1 1 [7, 8, 9]).width).toNat →
          (rgb2bgr (Image.mk 1 1 1 [7, 8, 9])).2.data.getD (3 * p) 0 =
            (Image.mk 1 1 1 [7, 8, 9]).data.getD (3 * p + 2) 0 ∧
          (rgb2bgr (Image.mk 1 1 1 [7, 8, 9])).2.data.getD (3 * p + 1) 0 =
            (Image.mk 1 1 1 [7, 8, 9]).data.getD (3 * p + 1) 0 ∧
          (rgb2bgr (Image.mk 1 1 1 [7, 8, 9])).2.data.getD (3 * p + 2) 0 =
            (Image.mk 1 1 1 [7, 8, 9]).data.getD (3 * p) 0)) :=
  ⟨by decide, rgb2bgr_spec (Image.mk 1 1 1 [7, 8, 9]) (by decide)⟩

/-! ### The keep-flag loops of frame_clean (C3, C4) -/

/-- Boolean case helper. -/
theorem bool_ne_false (b : Bool) (h : ¬ b = false) : b = true := by
  cases b
  · exact absurd rfl h
  · rfl

/-- Boolean case helper. -/
theorem bool_ne_true (b : Bool) (h : ¬ b = true) : b = false := by
  cases b
  · rfl
  · exact absurd rfl h

/-- Reading back a flag vector after clearing position j. -/
theorem getD_set_false (keep : List Bool) (j m : Nat) :
    (keep.set j false).getD m false = if m = j then false else keep.getD m false := by
  simp only [List.getD_eq_getElem?_getD, List.getElem?_set]
  by_cases hmj : m = j
  · subst hmj
    rw [if_pos rfl, if_pos rfl]
    by_cases hl : m < keep.length
    · rw [if_pos hl]
      rfl
    · rw [if_neg hl]
      rfl
  · rw [if_neg (fun h => hmj h.symm), if_neg hmj]

/-- One inner-loop iteration, read back position m: only position j can be
cleared, and only when the IoU test passes. -/
theorem innerStep_getD (bi : Box) (t : ℚ) (boxes : List Box) (keep : List Bool)
    (j m : Nat) :
    (innerStep bi t boxes keep j).getD m false =
      if m = j ∧ iouGe bi (boxes.getD j default) t = true then false
      else keep.getD m false := by
  unfold innerStep
  by_cases hio : iouGe bi (boxes.getD j default) t = true
  · rw [if_pos hio, getD_set_false]
    by_cases hmj : m = j
    · rw [if_pos hmj, if_pos ⟨hmj, hio⟩]
    · rw [if_neg hmj, if_neg (fun h => hmj h.1)]
  · rw [if_neg hio, if_neg (fun h => hio h.2)]

/-- The inner loop never changes the flag vector's length. -/
theorem innerStep_length (bi : Box) (t : ℚ) (boxes : List Box) (keep : List Bool)
    (j : Nat) : (innerStep bi t boxes keep j).length = keep.length := by
  unfold innerStep
  split
  · exact List.length_set keep j false
  · rfl

/-- Folding the inner loop over any index list preserves length. -/
theorem innerFold_length (bi : Box) (t : ℚ) (boxes : List Box) :
    ∀ (l : List Nat) (keep : List Bool),
      (l.foldl (innerStep bi t boxes) keep).length = keep.length := by
  intro l
  induction l with
  | nil => intro keep; rfl
  | cons j l ih =>
    intro keep
    rw [List.foldl_cons, ih]
    exact innerStep_length bi t boxes keep j

/-- The inner loop over j = s .. s+l-1, read back at any position m: m is
cleared exactly when it lies in the scanned range and its IoU with the
anchor box passes the threshold; all other flags are untouched. -/
theorem innerFold_getD (bi : Box) (t : ℚ) (boxes : List Box) :
    ∀ (l s : Nat) (keep : List Bool) (m : Nat),
      ((List.range' s l).foldl (innerStep bi t boxes) keep).getD m false =
        if s ≤ m ∧ m < s + l ∧ iouGe bi (boxes.getD m default) t = true then false
        else keep.getD m false := by
  intro l
  induction l with
  | zero =>
    intro s keep m
    rw [show List.range' s 0 = [] from rfl, List.foldl_nil, if_neg]
    rintro ⟨h1, h2, _⟩
    omega
  | succ l ih =>
    intro s keep m
    rw [List.range'_succ, List.foldl_cons, ih (s + 1) (innerStep bi t boxes keep s) m,
      innerStep_getD]
    by_cases h1 : s + 1 ≤ m ∧ m < s + 1 + l ∧ iouGe bi (boxes.getD m default) t = true
    · rw [if_pos h1, if_pos ⟨by omega, by omega, h1.2.2⟩]
    · rw [if_neg h1]
      by_cases h2 : m = s ∧ iouGe bi (boxes.getD s default) t = true
      · obtain ⟨rfl, hio⟩ := h2
        rw [if_pos ⟨rfl, hio⟩, if_pos ⟨by omega, by omega, hio⟩]
      · have hno : ¬ (s ≤ m ∧ m < s + (l + 1) ∧
            iouGe bi (boxes.getD m default) t = true) := by
          rintro ⟨ha, hb, hc⟩
          by_cases hms : m = s
          · subst hms
            exact h2 ⟨rfl, hc⟩
          · exact h1 ⟨by omega, by omega, hc⟩
        rw [if_neg h2, if_neg hno]

/-- One outer-loop iteration preserves the running characterization of the
keep flags: after iterations 0..i, a flag j is set exactly when no earlier
still-kept anchor m < min(i+1, j) passes the IoU threshold against j. -/
theorem outerStep_inv (boxes : List Box) (t : ℚ) (i : Nat) (keep : List Bool)
    (hi : i < boxes.length)
    (hlen : keep.length = boxes.length)
    (hch : ∀ j, j < boxes.length →
      (keep.getD j false = true ↔
        ∀ m, m < i → m < j → keep.getD m false = true →
          iouGe (boxes.getD m default) (boxes.getD j default) t = false)) :
    (outerStep boxes t keep i).length = boxes.length ∧
    ∀ j, j < boxes.length →
      ((outerStep boxes t keep i).getD j false = true ↔
        ∀ m, m < i + 1 → m < j → (outerStep boxes t keep i).getD m false = true →
          iouGe (boxes.getD m default) (boxes.getD j default) t = false) := by
  unfold outerStep
  by_cases hki : keep.getD i false = false
  · rw [if_pos hki]
    refine ⟨hlen, ?_⟩
    intro j hj
    rw [hch j hj]
    constructor
    · intro H m hm hmj hk
      by_cases hmi : m < i
      · exact H m hmi hmj hk
      · have : m = i := by omega
        subst this
        rw [hki] at hk
        exact absurd hk (by decide)
    · intro H m hm hmj hk
      exact H m (by omega) hmj hk
  · have hkt : keep.getD i false = true := bool_ne_false _ hki
    rw [if_neg hki]
    have hget : ∀ m, ((List.range' (i + 1) (boxes.length - (i + 1))).foldl
        (innerStep (boxes.getD i default) t boxes) keep).getD m false =
        if i + 1 ≤ m ∧ m < boxes.length ∧
            iouGe (boxes.getD i default) (boxes.getD m default) t = true then false
        else keep.getD m false := by
      intro m
      rw [innerFold_getD]
      have e : i + 1 + (boxes.length - (i + 1)) = boxes.length := by omega
      rw [e]
    refine ⟨by rw [innerFold_length]; exact hlen, ?_⟩
    intro j hj
    by_cases hij : i < j
    · constructor
      · intro H m hm hmj hk
        have hiou : iouGe (boxes.getD i default) (boxes.getD j default) t = false := by
          apply bool_ne_true
          intro hc
          rw [hget j, if_pos ⟨by omega, hj, hc⟩] at H
          exact absurd H (by decide)
        have hkj : keep.getD j false = true := by
          rw [hget j, if_neg] at H
          · exact H
          · rintro ⟨_, _, hc⟩
            rw [hiou] at hc
            exact absurd hc (by decide)
        by_cases hmi : m < i
        · have hgm : ((List.range' (i + 1) (boxes.length - (i + 1))).foldl
              (innerStep (boxes.getD i default) t boxes) keep).getD m false =
              keep.getD m false := by
            rw [hget m, if_neg]
            rintro ⟨h1, _, _⟩
            omega
          rw [hgm] at hk
          exact (hch j hj).mp hkj m hmi hmj hk
        · have : m = i := by omega
          subst this
          exact hiou
      · intro H
        have hgi : ((List.range' (i + 1) (boxes.length - (i + 1))).foldl
            (innerStep (boxes.getD i default) t boxes) keep).getD i false =
            keep.getD i false := by
          rw [hget i, if_neg]
          rintro ⟨h1, _, _⟩
          omega
        have hiou : iouGe (boxes.getD i default) (boxes.getD j default) t = false :=
          H i (by omega) hij (by rw [hgi]; exact hkt)
        have hkj : keep.getD j false = true := by
          apply (hch j hj).mpr
          intro m hm hmj hk
          have hgm : ((List.range' (i + 1) (boxes.length - (i + 1))).foldl
              (innerStep (boxes.getD i default) t boxes) keep).getD m false =
              keep.getD m false := by
            rw [hget m, if_neg]
            rintro ⟨h1, _, _⟩
            omega
          exact H m (by omega) hmj (by rw [hgm]; exact hk)
        rw [hget j, if_neg]
        · exact hkj
        · rintro ⟨_, _, hc⟩
          rw [hiou] at hc
          exact absurd hc (by decide)
    · have hgj : ((List.range' (i + 1) (boxes.length - (i + 1))).foldl
          (innerStep (boxes.getD i default) t boxes) keep).getD j false =
          keep.getD j false := by
        rw [hget j, if_neg]
        rintro ⟨h1, _, _⟩
        omega
      rw [hgj, hch j hj]
      constructor
      · intro H m hm hmj hk
        have hgm : ((List.range' (i + 1) (boxes.length - (i + 1))).foldl
            (innerStep (boxes.getD i default) t boxes) keep).getD m false =
            keep.getD m false := by
          rw [hget m, if_neg]
          rintro ⟨h1, _, _⟩
          omega
        rw [hgm] at hk
        exact H m (by omega) hmj hk
      · intro H m hm hmj hk
        have hgm : ((List.range' (i + 1) (boxes.length - (i + 1))).foldl
            (innerStep (boxes.getD i default) t boxes) keep).getD m false =
            keep.getD m false := by
          rw [hget m, if_neg]
          rintro ⟨h1, _, _⟩
          omega
        exact H m (by omega) hmj (by rw [hgm]; exact hk)

/-- Running the outer loop for the first k indices establishes the
characterization of the keep flags up to anchor bound k. -/
theorem frameCleanKeep_inv (boxes : List Box) (t : ℚ) :
    ∀ k, k ≤ boxes.length →
      (((List.range k).foldl (outerStep boxes t)
          (List.replicate boxes.length true)).length = boxes.length ∧
       ∀ j, j < boxes.length →
         (((List.range k).foldl (outerStep boxes t)
             (List.replicate boxes.length true)).getD j false = true ↔
           ∀ m, m < k → m < j →
             ((List.range k).foldl (outerStep boxes t)
                 (List.replicate boxes.length true)).getD m false = true →
             iouGe (boxes.getD m default) (boxes.getD j default) t = false)) := by
  intro k
  induction k with
  | zero =>
    intro _
    refine ⟨by simp, ?_⟩
    intro j hj
    constructor
    · intro _ m hm _ _
      exact absurd hm (by omega)
    · intro _
      simp only [List.range_zero, List.foldl_nil, List.getD_eq_getElem?_getD,
        List.getElem?_replicate, if_pos hj]
      rfl
  | succ k ih =>
    intro hk
    obtain ⟨hlen, hch⟩ := ih (by omega)
    rw [List.range_succ, List.foldl_append, List.foldl_cons, List.foldl_nil]
    exact outerStep_inv boxes t k _ (by omega) hlen hch

/-- The keep vector of frame_clean has the same length as the box list. -/
theorem frameCleanKeep_length (boxes : List Box) (t : ℚ) :
    (frameCleanKeep boxes t).length = boxes.length :=
  (frameCleanKeep_inv boxes t boxes.length (le_refl _)).1

/-- Fixpoint characterization of frame_clean's final keep vector: box j
survives exactly when no earlier surviving box reaches the IoU threshold
against it. -/
theorem frameCleanKeep_iff (boxes : List Box) (t : ℚ) (j : Nat)
    (hj : j < boxes.length) :
    ((frameCleanKeep boxes t).getD j false = true ↔
      ∀ m, m < j → (frameCleanKeep boxes t).getD m false = true →
        iouGe (boxes.getD m default) (boxes.getD j default) t = false) := by
  unfold frameCleanKeep
  rw [(frameCleanKeep_inv boxes t boxes.length (le_refl _)).2 j hj]
  constructor
  · intro H m hmj hk
    exact H m (by omega) hmj hk
  · intro H m _ hmj hk
    exact H m hmj hk

/-! ### The extraction loop of frame_clean -/

/-- The extraction loop returns a subsequence of the input boxes. -/
theorem select_sublist : ∀ (bs : List Box) (ks : List Bool),
    (select bs ks).Sublist bs := by
  intro bs
  induction bs with
  | nil => intro ks; exact List.Sublist.refl []
  | cons b bs ih =>
    intro ks
    cases ks with
    | nil => exact List.nil_sublist _
    | cons k ks =>
      cases k
      · exact List.Sublist.cons b (ih ks)
      · exact List.Sublist.cons₂ b (ih ks)

/-- Every element of the extracted list comes from a kept input position. -/
theorem mem_select : ∀ (bs : List Box) (ks : List Bool) (x : Box),
    x ∈ select bs ks →
    ∃ j, j < bs.length ∧ ks.getD j false = true ∧ bs.getD j default = x := by
  intro bs
  induction bs with
  | nil =>
    intro ks x hx
    simp [select] at hx
  | cons b bs ih =>
    intro ks x hx
    cases ks with
    | nil => simp [select] at hx
    | cons k ks =>
      cases k
      · obtain ⟨j, hj, hk, he⟩ := ih ks x (by simpa [select] using hx)
        exact ⟨j + 1, by simp only [List.length_cons]; omega,
          by rw [List.getD_cons_succ]; exact hk,
          by rw [List.getD_cons_succ]; exact he⟩
      · rcases List.mem_cons.mp (by simpa [select] using hx) with rfl | hmem
        · exact ⟨0, by simp only [List.length_cons]; omega, rfl, rfl⟩
        · obtain ⟨j, hj, hk, he⟩ := ih ks x hmem
          exact ⟨j + 1, by simp only [List.length_cons]; omega,
            by rw [List.getD_cons_succ]; exact hk,
            by rw [List.getD_cons_succ]; exact he⟩

/-- If the kept positions are pairwise related (earlier to later), so is the
extracted list. -/
theorem pairwise_select (R : Box → Box → Prop) :
    ∀ (bs : List Box) (ks : List Bool),
      (∀ i j, i < j → j < bs.length → ks.getD i false = true →
        ks.getD j false = true → R (bs.getD i default) (bs.getD j default)) →
      List.Pairwise R (select bs ks) := by
  intro bs
  induction bs with
  | nil =>
    intro ks _
    exact List.Pairwise.nil
  | cons b bs ih =>
    intro ks h
    cases ks with
    | nil => exact List.Pairwise.nil
    | cons k ks =>
      have hshift : ∀ i j, i < j → j < bs.length → ks.getD i false = true →
          ks.getD j false = true → R (bs.getD i default) (bs.getD j default) := by
        intro i j hij hj hki hkj
        have h2 := h (i + 1) (j + 1) (by omega) (by simp only [List.length_cons]; omega)
          (by rw [List.getD_cons_succ]; exact hki)
          (by rw [List.getD_cons_succ]; exact hkj)
        rw [List.getD_cons_succ, List.getD_cons_succ] at h2
        exact h2
      cases k
      · exact ih ks hshift
      · refine List.Pairwise.cons ?_ (ih ks hshift)
        intro x hx
        obtain ⟨j, hj, hkj, rfl⟩ := mem_select bs ks x hx
        have h2 := h 0 (j + 1) (by omega) (by simp only [List.length_cons]; omega)
          rfl (by rw [List.getD_cons_succ]; exact hkj)
        rw [List.getD_cons_succ] at h2
        exact h2

/-- Extraction with an all-true flag vector of matching length returns the
input unchanged. -/
theorem select_all_true : ∀ (bs : List Box) (ks : List Bool),
    ks.length = bs.length → (∀ j, j < ks.length → ks.getD j false = true) →
    select bs ks = bs := by
  intro bs
  induction bs with
  | nil => intro ks _ _; rfl
  | cons b bs ih =>
    intro ks hlen hall
    cases ks with
    | nil => simp only [List.length_nil, List.length_cons] at hlen; omega
    | cons k ks =>
      have hk : k = true := hall 0 (by simp only [List.length_cons]; omega)
      subst hk
      show b :: select bs ks = b :: bs
      congr 1
      apply ih ks
      · simp only [List.length_cons] at hlen
        omega
      · intro j hj
        have h2 := hall (j + 1) (by simp only [List.length_cons]; omega)
        rw [List.getD_cons_succ] at h2
        exact h2

/-- The boxes surviving frame_clean are pairwise below the threshold:
an earlier survivor never reaches the IoU threshold against a later one. -/
theorem frame_clean_boxes_pairwise (f : Frame) (t : ℚ) :
    List.Pairwise (fun x y => iouGe x y t = false) (frame_clean f t).boxes := by
  apply pairwise_select
  intro i j hij hj hki hkj
  exact (frameCleanKeep_iff f.boxes t j hj).mp hkj i hij hki

/-- On a box list whose pairs are all below the threshold, frame_clean's
loops keep every flag true and the extraction returns the list unchanged. -/
theorem select_frameCleanKeep_of_pairwise (bs : List Box) (t : ℚ)
    (h : List.Pairwise (fun x y => iouGe x y t = false) bs) :
    select bs (frameCleanKeep bs t) = bs := by
  apply select_all_true
  · exact frameCleanKeep_length bs t
  · intro j hj
    rw [frameCleanKeep_length] at hj
    rw [frameCleanKeep_iff bs t j hj]
    intro m hmj _
    have hp := List.pairwise_iff_getElem.mp h m j (by omega) hj hmj
    rw [List.getD_eq_getElem bs default (by omega : m < bs.length),
      List.getD_eq_getElem bs default hj]
    exact hp

/-- C3: frame_clean is idempotent: cleaning an already cleaned frame with
the same threshold changes nothing. -/
theorem frame_clean_idem (f : Frame) (t : ℚ) :
    frame_clean (frame_clean f t) t = frame_clean f t := by
  have h2 := select_frameCleanKeep_of_pairwise (frame_clean f t).boxes t
    (frame_clean_boxes_pairwise f t)
  show ({ frame_clean f t with
      boxes := select (frame_clean f t).boxes
        (frameCleanKeep (frame_clean f t).boxes t) } : Frame) = frame_clean f t
  rw [h2]

/-- C4: the output of frame_clean is a subsequence of its input boxes: never
longer, and surviving boxes keep their original relative order. -/
theorem frame_clean_sublist (f : Frame) (t : ℚ) :
    (frame_clean f t).boxes.Sublist f.boxes ∧
    (frame_clean f t).boxes.length ≤ f.boxes.length := by
  have hs : (frame_clean f t).boxes.Sublist f.boxes :=
    select_sublist f.boxes (frameCleanKeep f.boxes t)
  exact ⟨hs, hs.length_le⟩
